import Mathlib

set_option maxRecDepth 16384

/-!
Verification of the font8x8 bitmap-font extractor (src/main.c).

The development shallowly embeds the three core components of the program:
the bump/arena allocator, the UTF-8 validating decoder, and the glyph
extraction pass of `main`.  Machine pointers and sizes are modelled as
natural numbers (an address of `0` plays the role of `NULL`); `uptr`
wrap-around arithmetic in the padding computation is modelled explicitly
modulo `2 ^ 64`.  A fatal condition (`abort` on arena overflow, a failed
`assert`, or undefined behaviour such as reading past the end of a span)
is modelled by `Option`/`Except` failure values.
-/

/-! ## Arena allocator -/

/-- Embedding of `Arena`: the half-open region `[begin, end_)` of byte
addresses still available for allocation. -/
structure Arena where
  begin : Nat
  end_ : Nat
deriving DecidableEq

def ARENA_DEFAULT_ALIGNMENT : Nat := 16

/-- Embedding of the padding computation
`(~(uptr)arena->begin + 1) & ((uptr)alignment - 1)` of `arena_alloc_aligned`:
two's-complement negation on 64-bit `uptr` is `(2 ^ 64 - begin % 2 ^ 64) % 2 ^ 64`. -/
def arena_padding (begin alignment : Nat) : Nat :=
  ((2 ^ 64 - begin % 2 ^ 64) % 2 ^ 64) &&& (alignment - 1)

/-- Embedding of `arena_alloc_aligned`.  `none` models a process-terminating
condition (the alignment `assert` or the arena-overflow `abort`); a returned
pointer of `0` models `NULL`. -/
def arena_alloc_aligned (arena : Arena) (size alignment : Nat) : Option (Nat × Arena) :=
  if 0 < alignment ∧ alignment &&& (alignment - 1) = 0 then
    if size = 0 then
      some (0, arena)
    else
      let padding := arena_padding arena.begin alignment
      let memory_left : Int := (arena.end_ : Int) - (arena.begin : Int) - (padding : Int)
      if memory_left < 0 ∨ memory_left < (size : Int) then
        none
      else
        some (arena.begin + padding, ⟨arena.begin + padding + size, arena.end_⟩)
  else
    none

/-- Embedding of `arena_alloc`. -/
def arena_alloc (arena : Arena) (size : Nat) : Option (Nat × Arena) :=
  arena_alloc_aligned arena size ARENA_DEFAULT_ALIGNMENT

/-- Embedding of `arena_realloc`.  The byte contents of memory are carried
explicitly as `mem : Nat → Nat` (address to byte value) so that the `memcpy`
of the relocating branch can be expressed. -/
def arena_realloc (arena : Arena) (mem : Nat → Nat) (old_ptr old_size new_size : Nat) :
    Option (Nat × Arena × (Nat → Nat)) :=
  if new_size ≤ old_size then
    some (old_ptr, arena, mem)
  else if old_ptr ≠ 0 ∧ old_ptr + old_size = arena.begin then
    match arena_alloc ⟨old_ptr, arena.end_⟩ new_size with
    | none => none
    | some (new_ptr, arena2) => some (new_ptr, arena2, mem)
  else
    match arena_alloc arena new_size with
    | none => none
    | some (new_ptr, arena2) =>
      some (new_ptr, arena2, fun addr =>
        if new_ptr ≤ addr ∧ addr < new_ptr + old_size then
          mem (old_ptr + (addr - new_ptr))
        else
          mem addr)

/-- Folding a sequence of `(size, alignment)` requests through
`arena_alloc_aligned`, used to state the arena monotonicity property. -/
def arena_alloc_seq (arena : Arena) : List (Nat × Nat) → Option Arena
  | [] => some arena
  | (size, alignment) :: rest =>
    match arena_alloc_aligned arena size alignment with
    | none => none
    | some (_, arena2) => arena_alloc_seq arena2 rest

/-! ## UTF-8 decoder and validator -/

/-- Embedding of the 256-entry `utf8_char_size` lookup table: the encoded
length declared by each possible leading byte, `0` marking an invalid leader. -/
def utf8_char_size_table : List Nat :=
  [1, 1, 1, 1, 1, 1, 1, 1, 1, 1, 1, 1, 1, 1, 1, 1,
   1, 1, 1, 1, 1, 1, 1, 1, 1, 1, 1, 1, 1, 1, 1, 1,
   1, 1, 1, 1, 1, 1, 1, 1, 1, 1, 1, 1, 1, 1, 1, 1,
   1, 1, 1, 1, 1, 1, 1, 1, 1, 1, 1, 1, 1, 1, 1, 1,
   1, 1, 1, 1, 1, 1, 1, 1, 1, 1, 1, 1, 1, 1, 1, 1,
   1, 1, 1, 1, 1, 1, 1, 1, 1, 1, 1, 1, 1, 1, 1, 1,
   1, 1, 1, 1, 1, 1, 1, 1, 1, 1, 1, 1, 1, 1, 1, 1,
   1, 1, 1, 1, 1, 1, 1, 1, 1, 1, 1, 1, 1, 1, 1, 1,
   0, 0, 0, 0, 0, 0, 0, 0, 0, 0, 0, 0, 0, 0, 0, 0,
   0, 0, 0, 0, 0, 0, 0, 0, 0, 0, 0, 0, 0, 0, 0, 0,
   0, 0, 0, 0, 0, 0, 0, 0, 0, 0, 0, 0, 0, 0, 0, 0,
   0, 0, 0, 0, 0, 0, 0, 0, 0, 0, 0, 0, 0, 0, 0, 0,
   0, 0, 2, 2, 2, 2, 2, 2, 2, 2, 2, 2, 2, 2, 2, 2,
   2, 2, 2, 2, 2, 2, 2, 2, 2, 2, 2, 2, 2, 2, 2, 2,
   3, 3, 3, 3, 3, 3, 3, 3, 3, 3, 3, 3, 3, 3, 3, 3,
   4, 4, 4, 4, 4, 0, 0, 0, 0, 0, 0, 0, 0, 0, 0, 0]

def utf8_char_size (b : Nat) : Nat :=
  utf8_char_size_table.getD b 0

/-- Embedding of `utf8_chop_char` on a byte span (a `StringView` is a list of
byte values).  The result carries the decoded code point, the consumed byte
slice, and the advanced span.  `none` models the undefined behaviour of
calling the function on a span that does not start with the declared number
of bytes (including the `UNREACHABLE()` case of an invalid leading byte). -/
def utf8_chop_char : List Nat → Option (Nat × List Nat × List Nat)
  | [] => none
  | b0 :: rest =>
    match utf8_char_size b0, rest with
    | 1, _ =>
      some (b0, [b0], rest)
    | 2, b1 :: rest2 =>
      some (((b0 &&& 0x1f) <<< 6) ||| (b1 &&& 0x3f), [b0, b1], rest2)
    | 3, b1 :: b2 :: rest3 =>
      some ((((b0 &&& 0x0f) <<< 12) ||| ((b1 &&& 0x3f) <<< 6)) ||| (b2 &&& 0x3f),
        [b0, b1, b2], rest3)
    | 4, b1 :: b2 :: b3 :: rest4 =>
      some (((((b0 &&& 0x07) <<< 18) ||| ((b1 &&& 0x3f) <<< 12)) ||| ((b2 &&& 0x3f) <<< 6)) |||
        (b3 &&& 0x3f), [b0, b1, b2, b3], rest4)
    | _, _ => none

theorem utf8_chop_char_length {s : List Nat} {cc : Nat} {bs r : List Nat}
    (h : utf8_chop_char s = some (cc, bs, r)) : r.length < s.length := by
  rcases s with _ | ⟨b0, t⟩
  · simp [utf8_chop_char] at h
  · simp only [utf8_chop_char] at h
    split at h <;>
      first
      | exact Option.noConfusion h
      | (injection h with h1
         injection h1 with h2 h3
         injection h3 with h4 h5
         subst h5
         simp only [List.length_cons]
         omega)

/-- Embedding of `utf8_validate`. -/
def utf8_validate : List Nat → Bool
  | [] => true
  | b0 :: tail =>
    let char_size := utf8_char_size b0
    if char_size = 0 ∨ (b0 :: tail).length < char_size then false
    else
      match h : utf8_chop_char (b0 :: tail) with
      | none => false
      | some (char_code, _, rest) =>
        if char_size = 3 ∧ (char_code < 0x0800 ∨ char_code > 0xffff) then false
        else if char_size = 3 ∧ (0xd800 ≤ char_code ∧ char_code ≤ 0xdfff) then false
        else if char_size = 4 ∧ (char_code < 0x10000 ∨ char_code > 0x10ffff) then false
        else utf8_validate rest
termination_by s => s.length
decreasing_by
  have := utf8_chop_char_length h
  simpa using this

/-- Embedding of `char_is_space`: exactly space, tab, line feed, form feed
and carriage return. -/
def char_is_space (char_code : Nat) : Bool :=
  char_code == 0x0020 ||
  char_code == 0x0009 ||
  char_code == 0x000a ||
  char_code == 0x000c ||
  char_code == 0x000d

/-- Embedding of the character-counting loop of `main` (lines 314-324),
generalised to also record the non-whitespace characters it sees, in file
order, as `(code point, consumed byte slice)` pairs; the loop's
`font_char_count` is the length of this list.  `none` models the undefined
behaviour of chopping an invalid span. -/
def utf8_non_space_chars : List Nat → Option (List (Nat × List Nat))
  | [] => some []
  | b0 :: tail =>
    match h : utf8_chop_char (b0 :: tail) with
    | none => none
    | some (char_code, char_data, rest) =>
      match utf8_non_space_chars rest with
      | none => none
      | some chars =>
        if char_is_space char_code then some chars
        else some ((char_code, char_data) :: chars)
termination_by s => s.length
decreasing_by
  have := utf8_chop_char_length h
  simpa using this

/-- Embedding of the `do { ... } while (char_is_space(char_code))` loop of
`main` (lines 383-385): chop characters until a non-whitespace one is found,
returning it together with its byte slice and the advanced span. -/
def next_non_space (s : List Nat) : Option (Nat × List Nat × List Nat) :=
  match h : utf8_chop_char s with
  | none => none
  | some (char_code, char_data, rest) =>
    if char_is_space char_code then next_non_space rest
    else some (char_code, char_data, rest)
termination_by s.length
decreasing_by
  have := utf8_chop_char_length h
  simpa using this

/-- Canonical UTF-8 encoding of a Unicode scalar value, used to state the
round-trip property of the decoder. -/
def utf8_encode (c : Nat) : List Nat :=
  if c < 0x80 then
    [c]
  else if c < 0x800 then
    [0xc0 + c / 64, 0x80 + c % 64]
  else if c < 0x10000 then
    [0xe0 + c / 4096, 0x80 + c / 64 % 64, 0x80 + c % 64]
  else
    [0xf0 + c / 262144, 0x80 + c / 4096 % 64, 0x80 + c / 64 % 64, 0x80 + c % 64]

/-- The ways a byte sequence can start with invalid UTF-8, following the
validator's rejection taxonomy: a leader rejected by the lookup table (lone continuation
bytes `0x80`-`0xBF` and the overlong leaders `0xC0`/`0xC1`), a leader with
fewer remaining bytes than its declared length, a 3-byte form decoding below
`0x0800` (overlong), a 3-byte form decoding to a surrogate, or a 4-byte form
decoding below `0x10000` (overlong) or above `0x10FFFF`. -/
def utf8_bad_start (b : List Nat) : Prop :=
  (∃ b0 t, b = b0 :: t ∧ 0x80 ≤ b0 ∧ b0 ≤ 0xc1) ∨
  (∃ b0 t, b = b0 :: t ∧ 1 ≤ utf8_char_size b0 ∧ b.length < utf8_char_size b0) ∨
  (∃ cc bs r, utf8_chop_char b = some (cc, bs, r) ∧ bs.length = 3 ∧ cc < 0x0800) ∨
  (∃ cc bs r, utf8_chop_char b = some (cc, bs, r) ∧ bs.length = 3 ∧
    0xd800 ≤ cc ∧ cc ≤ 0xdfff) ∨
  (∃ cc bs r, utf8_chop_char b = some (cc, bs, r) ∧ bs.length = 4 ∧
    (cc < 0x10000 ∨ 0x10ffff < cc))

/-! ## Glyph extraction -/

def GLYPH_WIDTH : Nat := 8
def GLYPH_HEIGHT : Nat := 8

/-- Embedding of the loaded font bitmap (the `font` struct of `main`): pixel
dimensions, bytes per color, and the raw byte buffer as a function from byte
index to byte value. -/
structure Font where
  width : Nat
  height : Nat
  bytes_per_color : Nat
  data : Nat → Nat

/-- Embedding of `Glyph`: the code point, the null-terminated copy of the
character's UTF-8 bytes, and the 8x8 bitmap as a flat row-major list of
32-bit values. -/
structure Glyph where
  char_code : Nat
  char_data : List Nat
  bitmap : List Nat
deriving DecidableEq

/-- Embedding of the cell-emptiness scan of `main` (lines 359-373): the cell
whose top-left pixel has pixel index `font_data_index` is empty when no pixel
in it has first channel byte `0x00`. -/
def glyph_is_empty (font : Font) (font_data_index : Nat) : Bool :=
  (List.range GLYPH_HEIGHT).all fun glyph_y =>
    (List.range GLYPH_WIDTH).all fun glyph_x =>
      font.data (font_data_index * font.bytes_per_color +
        glyph_y * (font.width * font.bytes_per_color) +
        glyph_x * font.bytes_per_color) != 0x00

/-- Embedding of the bitmap-filling loop of `main` (lines 396-410): entry
`glyph_y * GLYPH_WIDTH + glyph_x` is `0xff000000` exactly when the first
channel byte of the corresponding pixel is `0x00`, and `0x00000000`
otherwise. -/
def glyph_bitmap (font : Font) (font_data_index : Nat) : List Nat :=
  (List.range (GLYPH_HEIGHT * GLYPH_WIDTH)).map fun i =>
    let glyph_y := i / GLYPH_WIDTH
    let glyph_x := i % GLYPH_WIDTH
    if font.data (font_data_index * font.bytes_per_color +
        glyph_y * (font.width * font.bytes_per_color) +
        glyph_x * font.bytes_per_color) = 0x00 then
      0xff000000
    else
      0x00000000

/-- Glyph record materialised for a non-empty cell (lines 387-394): the
matched code point, the null-terminated copy of its bytes, and the cell's
expanded bitmap. -/
def make_glyph (font : Font) (font_data_index : Nat) (char_code : Nat)
    (char_data : List Nat) : Glyph :=
  ⟨char_code, char_data ++ [0], glyph_bitmap font font_data_index⟩

/-- Cell coordinates `(font_grid_x, font_grid_y)` visited by the nested grid
loops of `main` (lines 355-356), in row-major order: `font_grid_y` ranges over
multiples of `GLYPH_HEIGHT` below `height`, `font_grid_x` over multiples of
`GLYPH_WIDTH` below `width`. -/
def font_grid_cells (font : Font) : List (Nat × Nat) :=
  (List.range ((font.height + GLYPH_HEIGHT - 1) / GLYPH_HEIGHT)).flatMap fun gy =>
    (List.range ((font.width + GLYPH_WIDTH - 1) / GLYPH_WIDTH)).map fun gx =>
      (gx * GLYPH_WIDTH, gy * GLYPH_HEIGHT)

/-- Pixel index `font_grid_y * font.width + font_grid_x` of a cell's top-left
pixel (line 357). -/
def cell_index (font : Font) (cell : Nat × Nat) : Nat :=
  cell.2 * font.width + cell.1

/-- Cells of the grid that are non-empty, in scan order. -/
def font_nonempty_cells (font : Font) : List (Nat × Nat) :=
  (font_grid_cells font).filter fun cell => ! glyph_is_empty font (cell_index font cell)

/-- Failure modes of the extraction pass: `tooManyGlyphs` (line 377),
`tooManyChars` (line 418), and `outOfInput`, which models the undefined
behaviour of chopping past the end of the legend span. -/
inductive ExtractError where
  | tooManyGlyphs
  | tooManyChars
  | outOfInput
deriving DecidableEq

/-- Embedding of the cell-scanning loops of `main` (lines 355-415): walk the
given cells, skipping empty ones; for each non-empty cell first check whether
the output array (capacity `glyph_cap`) is full, then pull the next
non-whitespace character from the legend span and append its glyph record. -/
def scan_cells (font : Font) (glyph_cap : Nat) :
    List (Nat × Nat) → List Nat → List Glyph → Except ExtractError (List Glyph × List Nat)
  | [], font_char_iter, glyphs => .ok (glyphs, font_char_iter)
  | cell :: cells, font_char_iter, glyphs =>
    if glyph_is_empty font (cell_index font cell) then
      scan_cells font glyph_cap cells font_char_iter glyphs
    else if glyphs.length = glyph_cap then
      .error .tooManyGlyphs
    else
      match next_non_space font_char_iter with
      | none => .error .outOfInput
      | some (char_code, char_data, rest) =>
        scan_cells font glyph_cap cells rest
          (glyphs ++ [make_glyph font (cell_index font cell) char_code char_data])

/-- Embedding of the extraction portion of `main` (lines 314-420): count the
legend's non-whitespace characters, scan the grid, and require that the
glyph count matches the character count exactly. -/
def extract (font : Font) (legend : List Nat) : Except ExtractError (List Glyph) :=
  match utf8_non_space_chars legend with
  | none => .error .outOfInput
  | some chars =>
    let font_char_count := chars.length
    match scan_cells font font_char_count (font_grid_cells font) legend [] with
    | .error e => .error e
    | .ok (glyphs, _) =>
      if glyphs.length = font_char_count then .ok glyphs
      else .error .tooManyChars

/-- Embedding of the observable outcome of `main` after the two resource
files are loaded: the process exit code together with the glyph table that
is printed (`none` when nothing is dumped).  Follows `main`'s check order:
UTF-8 validation (line 309), dimension divisibility (line 344), then the
extraction pass. -/
def main_run (font : Font) (legend : List Nat) : Nat × Option (List Glyph) :=
  if ¬ utf8_validate legend then
    (1, none)
  else if font.width % GLYPH_WIDTH ≠ 0 ∨ font.height % GLYPH_HEIGHT ≠ 0 then
    (1, none)
  else
    match extract font legend with
    | .error _ => (1, none)
    | .ok glyphs => (0, some glyphs)

/-! ## Arena allocator lemmas -/

theorem arena_padding_eq_zero_of_aligned {begin : Nat} (h : begin % 16 = 0) :
    arena_padding begin 16 = 0 := by
  unfold arena_padding
  rw [show (16 - 1 : Nat) = 2 ^ 4 - 1 from rfl, Nat.and_pow_two_sub_one_eq_mod]
  have h64 : (2 : Nat) ^ 64 = 18446744073709551616 := by norm_num
  rw [h64]
  omega

theorem arena_alloc_aligned_some {arena : Arena} {size alignment ptr : Nat} {arena2 : Arena}
    (h : arena_alloc_aligned arena size alignment = some (ptr, arena2)) :
    (size = 0 ∧ ptr = 0 ∧ arena2 = arena) ∨
      (0 < size ∧
        ptr = arena.begin + arena_padding arena.begin alignment ∧
        arena2.begin = arena.begin + arena_padding arena.begin alignment + size ∧
        arena2.end_ = arena.end_ ∧
        (arena.begin : Int) + arena_padding arena.begin alignment + size ≤ arena.end_) := by
  unfold arena_alloc_aligned at h
  split at h
  · split at h
    · left
      rename_i hz
      injection h with h1
      injection h1 with h2 h3
      exact ⟨hz, h2.symm, h3.symm⟩
    · right
      dsimp only at h
      split at h
      · exact Option.noConfusion h
      · injection h with h1
        injection h1 with h2 h3
        rename_i hz hleft
        subst h3
        refine ⟨by omega, h2.symm, rfl, rfl, ?_⟩
        omega
  · exact Option.noConfusion h

theorem arena_alloc_aligned_none {arena : Arena} {size alignment : Nat}
    (hle : arena.begin ≤ arena.end_) (hbig : arena.end_ - arena.begin < size) :
    arena_alloc_aligned arena size alignment = none := by
  unfold arena_alloc_aligned
  split
  · split
    · omega
    · dsimp only
      split
      · rfl
      · rename_i hleft
        exfalso
        have hpad : (0 : Int) ≤ (arena_padding arena.begin alignment : Int) := by positivity
        omega
  · rfl

theorem utf8_chop_char_append {s : List Nat} {cc : Nat} {bs r : List Nat} (t : List Nat)
    (h : utf8_chop_char s = some (cc, bs, r)) :
    utf8_chop_char (s ++ t) = some (cc, bs, r ++ t) := by
  rcases s with _ | ⟨b0, u⟩
  · simp [utf8_chop_char] at h
  · simp only [utf8_chop_char] at h
    split at h
    all_goals
      first
      | exact Option.noConfusion h
      | (rename_i hsz
         injection h with h1
         injection h1 with hcc h2
         injection h2 with hbs hr
         subst hcc
         subst hbs
         subst hr
         simp only [List.cons_append, utf8_chop_char, hsz])

/-! ## Bitwise arithmetic helpers -/

theorem lor_mul_pow_eq_add (k : Nat) : ∀ x y : Nat, y < 2 ^ k → (x * 2 ^ k) ||| y = x * 2 ^ k + y := by
  induction k with
  | zero =>
    intro x y hy
    interval_cases y
    simp
  | succ k ih =>
    intro x y hy
    have hx : x * 2 ^ (k + 1) = Nat.bit false (x * 2 ^ k) := by
      rw [Nat.bit_val, Nat.pow_succ]
      simp
      ring
    have hlt : y.div2 < 2 ^ k := by
      rw [Nat.div2_val]
      omega
    conv_lhs => rw [hx, (Nat.bit_decomp y).symm]
    rw [Nat.lor_bit, Bool.false_or, ih _ _ hlt]
    conv_rhs => rw [(Nat.bit_decomp y).symm]
    rw [Nat.bit_val, Nat.bit_val, Nat.pow_succ]
    ring

theorem lor_eq_add_of_dvd {k x y : Nat} (hx : 2 ^ k ∣ x) (hy : y < 2 ^ k) :
    x ||| y = x + y := by
  obtain ⟨m, rfl⟩ := hx
  rw [mul_comm]
  exact lor_mul_pow_eq_add k m y hy

/-! ## Lookup-table facts -/

theorem utf8_char_size_one : ∀ b < 0x80, utf8_char_size b = 1 := by decide

theorem utf8_char_size_two : ∀ b < 0xe0, 0xc2 ≤ b → utf8_char_size b = 2 := by decide

theorem utf8_char_size_three : ∀ b < 0xf0, 0xe0 ≤ b → utf8_char_size b = 3 := by decide

theorem utf8_char_size_four : ∀ b < 0xf5, 0xf0 ≤ b → utf8_char_size b = 4 := by decide

theorem utf8_char_size_invalid : ∀ b < 0xc2, 0x80 ≤ b → utf8_char_size b = 0 := by decide

/-! ## UTF-8 round trip -/

theorem utf8_chop_char_encode {c : Nat} (hc : c ≤ 0x10ffff) (rest : List Nat) :
    utf8_chop_char (utf8_encode c ++ rest) = some (c, utf8_encode c, rest) := by
  have p6 : (2 : Nat) ^ 6 = 64 := by norm_num
  have p12 : (2 : Nat) ^ 12 = 4096 := by norm_num
  have p18 : (2 : Nat) ^ 18 = 262144 := by norm_num
  unfold utf8_encode
  split_ifs with h1 h2 h3
  · have hsz : utf8_char_size c = 1 := utf8_char_size_one c h1
    simp [utf8_chop_char, hsz]
  · have hsz : utf8_char_size (0xc0 + c / 64) = 2 := by
      refine utf8_char_size_two _ (by omega) (by omega)
    simp only [List.cons_append, List.nil_append, utf8_chop_char, hsz]
    have e0 : (0xc0 + c / 64) &&& 0x1f = c / 64 := by
      rw [show (0x1f : Nat) = 2 ^ 5 - 1 from rfl, Nat.and_pow_two_sub_one_eq_mod]
      omega
    have e1 : (0x80 + c % 64) &&& 0x3f = c % 64 := by
      rw [show (0x3f : Nat) = 2 ^ 6 - 1 from rfl, Nat.and_pow_two_sub_one_eq_mod]
      omega
    rw [e0, e1, Nat.shiftLeft_eq, lor_mul_pow_eq_add 6 _ _ (by omega)]
    have harith : c / 64 * 2 ^ 6 + c % 64 = c := by
      rw [p6]
      omega
    rw [harith]
  · have hsz : utf8_char_size (0xe0 + c / 4096) = 3 := by
      refine utf8_char_size_three _ (by omega) (by omega)
    simp only [List.cons_append, List.nil_append, utf8_chop_char, hsz]
    have e0 : (0xe0 + c / 4096) &&& 0x0f = c / 4096 := by
      rw [show (0x0f : Nat) = 2 ^ 4 - 1 from rfl, Nat.and_pow_two_sub_one_eq_mod]
      omega
    have e1 : (0x80 + c / 64 % 64) &&& 0x3f = c / 64 % 64 := by
      rw [show (0x3f : Nat) = 2 ^ 6 - 1 from rfl, Nat.and_pow_two_sub_one_eq_mod]
      omega
    have e2 : (0x80 + c % 64) &&& 0x3f = c % 64 := by
      rw [show (0x3f : Nat) = 2 ^ 6 - 1 from rfl, Nat.and_pow_two_sub_one_eq_mod]
      omega
    have hb1 : c / 64 % 64 * 2 ^ 6 < 2 ^ 12 := by
      have hx : c / 64 % 64 ≤ 63 := by omega
      calc c / 64 % 64 * 2 ^ 6 ≤ 63 * 2 ^ 6 := Nat.mul_le_mul_right _ hx
        _ < 2 ^ 12 := by norm_num
    rw [e0, e1, e2, Nat.shiftLeft_eq, Nat.shiftLeft_eq,
      lor_mul_pow_eq_add 12 _ _ hb1,
      lor_eq_add_of_dvd (k := 6)
        ⟨c / 4096 * 2 ^ 6 + c / 64 % 64, by ring⟩ (by omega)]
    have harith : c / 4096 * 2 ^ 12 + c / 64 % 64 * 2 ^ 6 + c % 64 = c := by
      rw [p6, p12]
      omega
    rw [harith]
  · have hsz : utf8_char_size (0xf0 + c / 262144) = 4 := by
      refine utf8_char_size_four _ (by omega) (by omega)
    simp only [List.cons_append, List.nil_append, utf8_chop_char, hsz]
    have e0 : (0xf0 + c / 262144) &&& 0x07 = c / 262144 := by
      rw [show (0x07 : Nat) = 2 ^ 3 - 1 from rfl, Nat.and_pow_two_sub_one_eq_mod]
      omega
    have e1 : (0x80 + c / 4096 % 64) &&& 0x3f = c / 4096 % 64 := by
      rw [show (0x3f : Nat) = 2 ^ 6 - 1 from rfl, Nat.and_pow_two_sub_one_eq_mod]
      omega
    have e2 : (0x80 + c / 64 % 64) &&& 0x3f = c / 64 % 64 := by
      rw [show (0x3f : Nat) = 2 ^ 6 - 1 from rfl, Nat.and_pow_two_sub_one_eq_mod]
      omega
    have e3 : (0x80 + c % 64) &&& 0x3f = c % 64 := by
      rw [show (0x3f : Nat) = 2 ^ 6 - 1 from rfl, Nat.and_pow_two_sub_one_eq_mod]
      omega
    have hb1 : c / 4096 % 64 * 2 ^ 12 < 2 ^ 18 := by
      have hx : c / 4096 % 64 ≤ 63 := by omega
      calc c / 4096 % 64 * 2 ^ 12 ≤ 63 * 2 ^ 12 := Nat.mul_le_mul_right _ hx
        _ < 2 ^ 18 := by norm_num
    have hb2 : c / 64 % 64 * 2 ^ 6 < 2 ^ 12 := by
      have hx : c / 64 % 64 ≤ 63 := by omega
      calc c / 64 % 64 * 2 ^ 6 ≤ 63 * 2 ^ 6 := Nat.mul_le_mul_right _ hx
        _ < 2 ^ 12 := by norm_num
    rw [e0, e1, e2, e3, Nat.shiftLeft_eq, Nat.shiftLeft_eq, Nat.shiftLeft_eq,
      lor_mul_pow_eq_add 18 _ _ hb1,
      lor_eq_add_of_dvd (k := 12)
        ⟨c / 262144 * 2 ^ 6 + c / 4096 % 64, by ring⟩ hb2,
      lor_eq_add_of_dvd (k := 6)
        ⟨c / 262144 * 2 ^ 12 + c / 4096 % 64 * 2 ^ 6 + c / 64 % 64, by ring⟩ (by omega)]
    have harith :
        c / 262144 * 2 ^ 18 + c / 4096 % 64 * 2 ^ 12 + c / 64 % 64 * 2 ^ 6 + c % 64 = c := by
      rw [p6, p12, p18]
      omega
    rw [harith]

theorem utf8_chop_char_shape {b0 : Nat} {t : List Nat} {cc : Nat} {bs r : List Nat}
    (h : utf8_chop_char (b0 :: t) = some (cc, bs, r)) :
    bs.length = utf8_char_size b0 ∧ b0 :: t = bs ++ r := by
  simp only [utf8_chop_char] at h
  split at h
  all_goals
    first
    | exact Option.noConfusion h
    | (rename_i hsz
       injection h with h1
       injection h1 with hcc h2
       injection h2 with hbs hr
       subst hbs
       subst hr
       constructor
       · simp [hsz]
       · simp)

theorem utf8_validate_nil : utf8_validate [] = true := by
  simp [utf8_validate]

theorem utf8_validate_cons_false_size {b0 : Nat} {tail : List Nat}
    (h : utf8_char_size b0 = 0 ∨ (b0 :: tail).length < utf8_char_size b0) :
    utf8_validate (b0 :: tail) = false := by
  rw [utf8_validate]
  rw [if_pos h]

theorem utf8_validate_cons_eq {b0 : Nat} {tail : List Nat} {cc : Nat} {bs r : List Nat}
    (hc : utf8_chop_char (b0 :: tail) = some (cc, bs, r))
    (h0 : utf8_char_size b0 ≠ 0)
    (hlen : utf8_char_size b0 ≤ (b0 :: tail).length) :
    utf8_validate (b0 :: tail) =
      (if utf8_char_size b0 = 3 ∧ (cc < 0x0800 ∨ cc > 0xffff) then false
       else if utf8_char_size b0 = 3 ∧ (0xd800 ≤ cc ∧ cc ≤ 0xdfff) then false
       else if utf8_char_size b0 = 4 ∧ (cc < 0x10000 ∨ cc > 0x10ffff) then false
       else utf8_validate r) := by
  conv_lhs => rw [utf8_validate]
  rw [if_neg (by omega)]
  split
  · rename_i heq
    rw [heq] at hc
    exact Option.noConfusion hc
  · rename_i cc2 bs2 r2 heq
    rw [heq] at hc
    injection hc with h1
    injection h1 with hcc h2
    injection h2 with hbs hr
    subst hcc
    subst hr
    rfl

theorem utf8_validate_cons_true {b0 : Nat} {tail : List Nat}
    (h : utf8_validate (b0 :: tail) = true) :
    ∃ cc bs r, utf8_chop_char (b0 :: tail) = some (cc, bs, r) ∧
      utf8_char_size b0 ≠ 0 ∧
      utf8_char_size b0 ≤ (b0 :: tail).length ∧
      ¬(utf8_char_size b0 = 3 ∧ (cc < 0x0800 ∨ cc > 0xffff)) ∧
      ¬(utf8_char_size b0 = 3 ∧ (0xd800 ≤ cc ∧ cc ≤ 0xdfff)) ∧
      ¬(utf8_char_size b0 = 4 ∧ (cc < 0x10000 ∨ cc > 0x10ffff)) ∧
      utf8_validate r = true := by
  rw [utf8_validate] at h
  split at h
  · exact Bool.noConfusion h
  · rename_i hsize
    split at h
    · exact Bool.noConfusion h
    · rename_i cc bs r heq
      split_ifs at h with hc1 hc2 hc3
      exact ⟨cc, bs, r, heq, by omega, by omega, hc1, hc2, hc3, h⟩

theorem utf8_validate_append_false :
    ∀ s : List Nat, utf8_validate s = true →
      ∀ b : List Nat, utf8_validate b = false → utf8_validate (s ++ b) = false := by
  have H : ∀ n, ∀ s : List Nat, s.length ≤ n → utf8_validate s = true →
      ∀ b : List Nat, utf8_validate b = false → utf8_validate (s ++ b) = false := by
    intro n
    induction n with
    | zero =>
      intro s hsn hs b hb
      rcases s with _ | ⟨b0, tail⟩
      · simpa using hb
      · simp at hsn
    | succ n ih =>
      intro s hsn hs b hb
      rcases s with _ | ⟨b0, tail⟩
      · simpa using hb
      · obtain ⟨cc, bs, r, heq, h0, hlen, hc1, hc2, hc3, hr⟩ := utf8_validate_cons_true hs
        have happ := utf8_chop_char_append b heq
        rw [List.cons_append] at happ
        have hlen2 : utf8_char_size b0 ≤ (b0 :: (tail ++ b)).length := by
          simp only [List.length_cons, List.length_append] at hlen ⊢
          omega
        rw [List.cons_append, utf8_validate_cons_eq happ h0 hlen2,
          if_neg hc1, if_neg hc2, if_neg hc3]
        have hrlen : r.length < (b0 :: tail).length := utf8_chop_char_length heq
        refine ih r ?_ hr b hb
        simp only [List.length_cons] at hrlen hsn
        omega
  exact fun s hs b hb => H s.length s le_rfl hs b hb

theorem utf8_validate_bad_start {b : List Nat} (hb : utf8_bad_start b) :
    utf8_validate b = false := by
  rcases hb with ⟨b0, t, rfl, h1, h2⟩ | ⟨b0, t, rfl, h1, h2⟩ |
    ⟨cc, bs, r, hchop, hl, hcc⟩ | ⟨cc, bs, r, hchop, hl, hcc1, hcc2⟩ |
    ⟨cc, bs, r, hchop, hl, hcc⟩
  · exact utf8_validate_cons_false_size (Or.inl (utf8_char_size_invalid b0 (by omega) h1))
  · exact utf8_validate_cons_false_size (Or.inr h2)
  · rcases b with _ | ⟨b0, t⟩
    · exact absurd hchop (by simp [utf8_chop_char])
    · obtain ⟨hbs_len, hshape⟩ := utf8_chop_char_shape hchop
      have hsz : utf8_char_size b0 = 3 := by omega
      have hlen : utf8_char_size b0 ≤ (b0 :: t).length := by
        have := congrArg List.length hshape
        simp only [List.length_append] at this
        omega
      rw [utf8_validate_cons_eq hchop (by omega) hlen, if_pos ⟨hsz, Or.inl (by omega)⟩]
  · rcases b with _ | ⟨b0, t⟩
    · exact absurd hchop (by simp [utf8_chop_char])
    · obtain ⟨hbs_len, hshape⟩ := utf8_chop_char_shape hchop
      have hsz : utf8_char_size b0 = 3 := by omega
      have hlen : utf8_char_size b0 ≤ (b0 :: t).length := by
        have := congrArg List.length hshape
        simp only [List.length_append] at this
        omega
      rw [utf8_validate_cons_eq hchop (by omega) hlen,
        if_neg (by rw [hsz]; omega), if_pos ⟨hsz, by omega, by omega⟩]
  · rcases b with _ | ⟨b0, t⟩
    · exact absurd hchop (by simp [utf8_chop_char])
    · obtain ⟨hbs_len, hshape⟩ := utf8_chop_char_shape hchop
      have hsz : utf8_char_size b0 = 4 := by omega
      have hlen : utf8_char_size b0 ≤ (b0 :: t).length := by
        have := congrArg List.length hshape
        simp only [List.length_append] at this
        omega
      rw [utf8_validate_cons_eq hchop (by omega) hlen,
        if_neg (by rw [hsz]; omega), if_neg (by rw [hsz]; omega),
        if_pos ⟨hsz, by omega⟩]

/-- C3: for every Unicode scalar value (code points in
`[0x0000, 0xD7FF] ∪ [0xE000, 0x10FFFF]`), `utf8_chop_char` applied to a span
beginning with the canonical UTF-8 encoding of that value decodes the value
itself, returns the encoding's bytes as the consumed slice, and advances the
span past exactly those bytes. -/
theorem c3_utf8_roundtrip (c : Nat) (rest : List Nat)
    (hc : c ≤ 0xd7ff ∨ (0xe000 ≤ c ∧ c ≤ 0x10ffff)) :
    utf8_chop_char (utf8_encode c ++ rest) = some (c, utf8_encode c, rest) :=
  utf8_chop_char_encode (by omega) rest

theorem c3_utf8_roundtrip_witness :
    ((0x2713 : Nat) ≤ 0xd7ff ∨ (0xe000 ≤ 0x2713 ∧ (0x2713 : Nat) ≤ 0x10ffff)) ∧
      utf8_chop_char (utf8_encode 0x2713 ++ [0x41]) =
        some (0x2713, utf8_encode 0x2713, [0x41]) :=
  ⟨Or.inl (by norm_num), c3_utf8_roundtrip 0x2713 [0x41] (Or.inl (by norm_num))⟩

/-- C4: `utf8_validate` returns `false` for every byte sequence consisting of
well-formed characters followed by a bad start: a lone continuation byte or
overlong leader (`0x80`-`0xC1`, rejected by the lookup table), a leader with
fewer remaining bytes than its declared length, an overlong 3-byte form
(below `0x0800`), a 3-byte surrogate (`0xD800`-`0xDFFF`), or a 4-byte form
decoding below `0x10000` or above `0x10FFFF`. -/
theorem c4_validate_rejects_invalid (p b : List Nat)
    (hp : utf8_validate p = true) (hb : utf8_bad_start b) :
    utf8_validate (p ++ b) = false :=
  utf8_validate_append_false p hp b (utf8_validate_bad_start hb)

theorem c4_validate_rejects_invalid_witness :
    utf8_validate [0x41] = true ∧ utf8_bad_start [0x80] ∧
      utf8_validate ([0x41] ++ [0x80]) = false := by
  have hc : utf8_chop_char [0x41] = some (0x41, [0x41], []) := by decide
  have hsz : utf8_char_size 0x41 = 1 := by decide
  have h1 : utf8_validate [0x41] = true := by
    rw [utf8_validate_cons_eq hc (by decide) (by decide), hsz]
    simp [utf8_validate_nil]
  have h2 : utf8_bad_start [0x80] :=
    Or.inl ⟨0x80, [], rfl, by norm_num, by norm_num⟩
  exact ⟨h1, h2, c4_validate_rejects_invalid [0x41] [0x80] h1 h2⟩

/-- C8: `char_is_space` accepts exactly the five code points space (U+0020),
tab (U+0009), line feed (U+000A), form feed (U+000C) and carriage return
(U+000D); every other code point, vertical tab U+000B included, is not
whitespace. -/
theorem c8_char_is_space_exact (c : Nat) :
    char_is_space c = true ↔
      (c = 0x0020 ∨ c = 0x0009 ∨ c = 0x000a ∨ c = 0x000c ∨ c = 0x000d) := by
  simp [char_is_space, or_assoc]

/-- C7: an allocation request of size `0`, for any arena state (an exhausted
one included) and any valid (positive power-of-two) alignment, returns the
null allocation without aborting and leaves the arena untouched. -/
theorem c7_zero_size_alloc (arena : Arena) (alignment : Nat)
    (ha : 0 < alignment ∧ alignment &&& (alignment - 1) = 0) :
    arena_alloc_aligned arena 0 alignment = some (0, arena) := by
  unfold arena_alloc_aligned
  rw [if_pos ha, if_pos rfl]

theorem c7_zero_size_alloc_witness :
    (0 < 16 ∧ 16 &&& (16 - 1) = 0) ∧
      arena_alloc_aligned ⟨5, 5⟩ 0 16 = some (0, ⟨5, 5⟩) :=
  ⟨by decide, c7_zero_size_alloc ⟨5, 5⟩ 16 (by decide)⟩

theorem arena_alloc_aligned_invariant {arena : Arena} {size alignment ptr : Nat}
    {arena2 : Arena} (hle : arena.begin ≤ arena.end_)
    (h : arena_alloc_aligned arena size alignment = some (ptr, arena2)) :
    arena2.begin ≤ arena2.end_ ∧ arena2.end_ = arena.end_ ∧
      arena2.end_ - arena2.begin + size ≤ arena.end_ - arena.begin ∧
      (0 < size → arena2.begin = arena.begin + arena_padding arena.begin alignment + size) := by
  rcases arena_alloc_aligned_some h with ⟨hz, hp, rfl⟩ | ⟨hpos, hp, hb, he, hle2⟩
  · subst hz
    exact ⟨hle, rfl, by omega, by omega⟩
  · exact ⟨by omega, he, by omega, fun _ => hb⟩

theorem arena_alloc_seq_invariant :
    ∀ (reqs : List (Nat × Nat)) (arena arena2 : Arena),
      arena.begin ≤ arena.end_ → arena_alloc_seq arena reqs = some arena2 →
      arena2.begin ≤ arena2.end_ ∧
        arena2.end_ - arena2.begin + (reqs.map Prod.fst).sum ≤ arena.end_ - arena.begin := by
  intro reqs
  induction reqs with
  | nil =>
    intro arena arena2 hle h
    simp only [arena_alloc_seq] at h
    injection h with h1
    subst h1
    simpa using hle
  | cons req rest ih =>
    intro arena arena2 hle h
    obtain ⟨size, alignment⟩ := req
    rw [arena_alloc_seq] at h
    split at h
    · exact Option.noConfusion h
    · rename_i p a2 heq
      obtain ⟨hle2, hend, hmono, -⟩ := arena_alloc_aligned_invariant hle heq
      obtain ⟨hfinal, hsum⟩ := ih a2 arena2 hle2 h
      refine ⟨hfinal, ?_⟩
      simp only [List.map_cons, List.sum_cons]
      omega

/-- C6: arena invariants.  Part 1: a successful `arena_alloc_aligned` keeps
`begin <= end_` and, for `size > 0`, advances `begin` by exactly
`padding + size`.  Part 2: over any successful sequence of allocations the
remaining space shrinks by at least the sum of the requested sizes.  Part 3:
a request larger than the remaining space aborts (`none`).  Part 4: once
`begin = end_`, any request of positive size aborts.  Part 5: a successful
`arena_realloc` also preserves `begin <= end_`. -/
theorem c6_arena_invariants :
    (∀ (arena : Arena) (size alignment ptr : Nat) (arena2 : Arena),
        arena.begin ≤ arena.end_ →
        arena_alloc_aligned arena size alignment = some (ptr, arena2) →
        arena2.begin ≤ arena2.end_ ∧ arena2.end_ = arena.end_ ∧
          (0 < size →
            arena2.begin = arena.begin + arena_padding arena.begin alignment + size)) ∧
    (∀ (reqs : List (Nat × Nat)) (arena arena2 : Arena),
        arena.begin ≤ arena.end_ → arena_alloc_seq arena reqs = some arena2 →
        arena2.begin ≤ arena2.end_ ∧
          arena2.end_ - arena2.begin + (reqs.map Prod.fst).sum ≤
            arena.end_ - arena.begin) ∧
    (∀ (arena : Arena) (size alignment : Nat),
        arena.begin ≤ arena.end_ → arena.end_ - arena.begin < size →
        arena_alloc_aligned arena size alignment = none) ∧
    (∀ (arena : Arena) (size alignment : Nat),
        arena.begin = arena.end_ → 0 < size →
        arena_alloc_aligned arena size alignment = none) ∧
    (∀ (arena : Arena) (mem : Nat → Nat) (old_ptr old_size new_size ptr : Nat)
        (arena2 : Arena) (mem2 : Nat → Nat),
        arena.begin ≤ arena.end_ →
        arena_realloc arena mem old_ptr old_size new_size = some (ptr, arena2, mem2) →
        arena2.begin ≤ arena2.end_) := by
  refine ⟨?_, arena_alloc_seq_invariant, ?_, ?_, ?_⟩
  · intro arena size alignment ptr arena2 hle h
    obtain ⟨h1, h2, -, h4⟩ := arena_alloc_aligned_invariant hle h
    exact ⟨h1, h2, h4⟩
  · intro arena size alignment hle hbig
    exact arena_alloc_aligned_none hle hbig
  · intro arena size alignment heq hpos
    exact arena_alloc_aligned_none (by omega) (by omega)
  · intro arena mem old_ptr old_size new_size ptr arena2 mem2 hle h
    unfold arena_realloc at h
    split_ifs at h with h1 h2
    · injection h with h3
      injection h3 with h4 h5
      injection h5 with h6 h7
      subst h6
      exact hle
    · split at h
      · exact Option.noConfusion h
      · rename_i np a2 heq
        injection h with h3
        injection h3 with h4 h5
        injection h5 with h6 h7
        subst h6
        have hple : old_ptr ≤ arena.end_ := by omega
        exact (arena_alloc_aligned_invariant hple heq).1
    · split at h
      · exact Option.noConfusion h
      · rename_i np a2 heq
        injection h with h3
        injection h3 with h4 h5
        injection h5 with h6 h7
        subst h6
        exact (arena_alloc_aligned_invariant hle heq).1

theorem c6_arena_invariants_witness :
    (((⟨40, 64⟩ : Arena).begin ≤ (⟨40, 64⟩ : Arena).end_ ∧
        (⟨40, 64⟩ : Arena).end_ = (⟨32, 64⟩ : Arena).end_ ∧
        (0 < 8 →
          (⟨40, 64⟩ : Arena).begin =
            (⟨32, 64⟩ : Arena).begin + arena_padding (⟨32, 64⟩ : Arena).begin 16 + 8)) ∧
      ((⟨40, 64⟩ : Arena).begin ≤ (⟨40, 64⟩ : Arena).end_ ∧
        (⟨40, 64⟩ : Arena).end_ - (⟨40, 64⟩ : Arena).begin +
            (([(8, 16)] : List (Nat × Nat)).map Prod.fst).sum ≤
          (⟨32, 64⟩ : Arena).end_ - (⟨32, 64⟩ : Arena).begin) ∧
      (arena_alloc_aligned ⟨32, 64⟩ 100 16 = none) ∧
      (arena_alloc_aligned ⟨64, 64⟩ 1 16 = none) ∧
      ((⟨40, 64⟩ : Arena).begin ≤ (⟨40, 64⟩ : Arena).end_)) :=
  ⟨c6_arena_invariants.1 ⟨32, 64⟩ 8 16 32 ⟨40, 64⟩ (by decide) (by decide),
   c6_arena_invariants.2.1 [(8, 16)] ⟨32, 64⟩ ⟨40, 64⟩ (by decide) (by decide),
   c6_arena_invariants.2.2.1 ⟨32, 64⟩ 100 16 (by decide) (by decide),
   c6_arena_invariants.2.2.2.1 ⟨64, 64⟩ 1 16 rfl (by decide),
   c6_arena_invariants.2.2.2.2 ⟨32, 64⟩ (fun _ => 0) 16 16 24 16 ⟨40, 64⟩ (fun _ => 0)
     (by decide) rfl⟩

/-- C5 (counterexample): growing the most recent allocation in place does not
always return the original pointer.  Block at address `17` of size `1` is the
most recent allocation of the arena `[18, 100)` (`17 + 1 = begin`, nothing
allocated since), yet growing it to size `2` returns pointer `32`: the
in-place path rewinds `begin` to `17` and re-allocates through `arena_alloc`,
whose default 16-byte alignment inserts `15` bytes of padding because `17` is
not 16-byte aligned.  (The retained bytes are not copied either: the returned
memory function is unchanged while the block moved.) -/
theorem c5_realloc_counterexample :
    (17 : Nat) ≠ 0 ∧ 17 + 1 = (⟨18, 100⟩ : Arena).begin ∧ (1 : Nat) < 2 ∧
      arena_realloc ⟨18, 100⟩ (fun _ => 0) 17 1 2 = some (32, ⟨34, 100⟩, fun _ => 0) ∧
      (32 : Nat) ≠ 17 := by
  refine ⟨by norm_num, rfl, by norm_num, ?_, by norm_num⟩
  rfl

/-- C5 (amended): if a block of size `old_size` at `old_ptr` was the most
recent allocation and nothing has been allocated since, and additionally
`old_ptr` is aligned to the arena's default 16-byte alignment and the grown
block fits in the remaining space, then `arena_realloc` to any strictly
larger size returns the original pointer and leaves the memory contents
(in particular the first `old_size` bytes of the block) unchanged. -/
theorem c5_realloc_in_place_aligned (arena : Arena) (mem : Nat → Nat)
    (old_ptr old_size new_size : Nat)
    (hnz : old_ptr ≠ 0)
    (hlast : old_ptr + old_size = arena.begin)
    (hgrow : old_size < new_size)
    (halign : old_ptr % 16 = 0)
    (hfit : old_ptr + new_size ≤ arena.end_) :
    arena_realloc arena mem old_ptr old_size new_size =
      some (old_ptr, ⟨old_ptr + new_size, arena.end_⟩, mem) := by
  have halloc : arena_alloc ⟨old_ptr, arena.end_⟩ new_size =
      some (old_ptr, ⟨old_ptr + new_size, arena.end_⟩) := by
    unfold arena_alloc ARENA_DEFAULT_ALIGNMENT arena_alloc_aligned
    rw [if_pos (by decide), if_neg (by omega)]
    dsimp only
    rw [arena_padding_eq_zero_of_aligned halign]
    rw [if_neg (by push_cast; omega)]
    norm_num
  unfold arena_realloc
  rw [if_neg (by omega), if_pos ⟨hnz, hlast⟩, halloc]

theorem c5_realloc_in_place_aligned_witness :
    ((16 : Nat) ≠ 0 ∧ 16 + 16 = (⟨32, 100⟩ : Arena).begin ∧ (16 : Nat) < 24 ∧
        (16 : Nat) % 16 = 0 ∧ 16 + 24 ≤ (⟨32, 100⟩ : Arena).end_) ∧
      arena_realloc ⟨32, 100⟩ (fun _ => 0) 16 16 24 =
        some (16, ⟨16 + 24, 100⟩, fun _ => 0) :=
  ⟨⟨by norm_num, by decide, by norm_num, by norm_num, by decide⟩,
   c5_realloc_in_place_aligned ⟨32, 100⟩ (fun _ => 0) 16 16 24
     (by norm_num) (by decide) (by norm_num) (by norm_num) (by decide)⟩

/-! ## Legend-stream lemmas -/

theorem utf8_non_space_chars_nil : utf8_non_space_chars [] = some [] := by
  simp [utf8_non_space_chars]

theorem utf8_non_space_chars_cons_eq {b0 : Nat} {tail : List Nat} {cc : Nat}
    {bs r : List Nat} (hc : utf8_chop_char (b0 :: tail) = some (cc, bs, r)) :
    utf8_non_space_chars (b0 :: tail) =
      match utf8_non_space_chars r with
      | none => none
      | some chars =>
        if char_is_space cc then some chars else some ((cc, bs) :: chars) := by
  conv_lhs => rw [utf8_non_space_chars]
  split
  · rename_i heq
    rw [heq] at hc
    exact Option.noConfusion hc
  · rename_i cc2 bs2 r2 heq
    rw [heq] at hc
    injection hc with h1
    injection h1 with hcc h2
    injection h2 with hbs hr
    subst hcc
    subst hbs
    subst hr
    rfl

theorem utf8_non_space_chars_cons_inv {b0 : Nat} {tail : List Nat}
    {l : List (Nat × List Nat)} (h : utf8_non_space_chars (b0 :: tail) = some l) :
    ∃ cc bs r l2, utf8_chop_char (b0 :: tail) = some (cc, bs, r) ∧
      utf8_non_space_chars r = some l2 ∧
      l = (if char_is_space cc then l2 else (cc, bs) :: l2) := by
  rw [utf8_non_space_chars] at h
  split at h
  · exact Option.noConfusion h
  · rename_i cc bs r heq
    split at h
    · exact Option.noConfusion h
    · rename_i l2 heq2
      refine ⟨cc, bs, r, l2, heq, heq2, ?_⟩
      split at h
      · rename_i hsp
        rw [if_pos hsp]
        injection h with h1
        exact h1.symm
      · rename_i hsp
        rw [if_neg hsp]
        injection h with h1
        exact h1.symm

theorem next_non_space_nil : next_non_space [] = none := by
  rw [next_non_space]
  simp [utf8_chop_char]

theorem next_non_space_eq {s : List Nat} {cc : Nat} {bs r : List Nat}
    (hc : utf8_chop_char s = some (cc, bs, r)) :
    next_non_space s =
      if char_is_space cc then next_non_space r else some (cc, bs, r) := by
  conv_lhs => rw [next_non_space]
  split
  · rename_i heq
    rw [heq] at hc
    exact Option.noConfusion hc
  · rename_i cc2 bs2 r2 heq
    rw [heq] at hc
    injection hc with h1
    injection h1 with hcc h2
    injection h2 with hbs hr
    subst hcc
    subst hbs
    subst hr
    rfl

theorem utf8_non_space_chars_of_validate :
    ∀ s : List Nat, utf8_validate s = true → ∃ l, utf8_non_space_chars s = some l := by
  have H : ∀ n, ∀ s : List Nat, s.length ≤ n → utf8_validate s = true →
      ∃ l, utf8_non_space_chars s = some l := by
    intro n
    induction n with
    | zero =>
      intro s hsn hs
      rcases s with _ | ⟨b0, tail⟩
      · exact ⟨[], utf8_non_space_chars_nil⟩
      · simp at hsn
    | succ n ih =>
      intro s hsn hs
      rcases s with _ | ⟨b0, tail⟩
      · exact ⟨[], utf8_non_space_chars_nil⟩
      · obtain ⟨cc, bs, r, heq, -, -, -, -, -, hr⟩ := utf8_validate_cons_true hs
        have hrlen : r.length < (b0 :: tail).length := utf8_chop_char_length heq
        obtain ⟨l2, hl2⟩ := ih r (by simp only [List.length_cons] at hrlen hsn; omega) hr
        rw [utf8_non_space_chars_cons_eq heq, hl2]
        cases hsp : char_is_space cc
        · exact ⟨(cc, bs) :: l2, by simp [hsp]⟩
        · exact ⟨l2, by simp [hsp]⟩
  exact fun s hs => H s.length s le_rfl hs

theorem next_non_space_spec :
    ∀ (s : List Nat) (l : List (Nat × List Nat)), utf8_non_space_chars s = some l →
      (l = [] → next_non_space s = none) ∧
      (∀ cc bs l2, l = (cc, bs) :: l2 →
        ∃ r, next_non_space s = some (cc, bs, r) ∧ utf8_non_space_chars r = some l2) := by
  have H : ∀ n, ∀ (s : List Nat) (l : List (Nat × List Nat)), s.length ≤ n →
      utf8_non_space_chars s = some l →
      (l = [] → next_non_space s = none) ∧
      (∀ cc bs l2, l = (cc, bs) :: l2 →
        ∃ r, next_non_space s = some (cc, bs, r) ∧ utf8_non_space_chars r = some l2) := by
    intro n
    induction n with
    | zero =>
      intro s l hsn h
      rcases s with _ | ⟨b0, tail⟩
      · rw [utf8_non_space_chars_nil] at h
        injection h with h1
        subst h1
        exact ⟨fun _ => next_non_space_nil, fun cc bs l2 hcons => List.noConfusion hcons⟩
      · simp at hsn
    | succ n ih =>
      intro s l hsn h
      rcases s with _ | ⟨b0, tail⟩
      · rw [utf8_non_space_chars_nil] at h
        injection h with h1
        subst h1
        exact ⟨fun _ => next_non_space_nil, fun cc bs l2 hcons => List.noConfusion hcons⟩
      · obtain ⟨cc, bs, r, l2, heq, hl2some, hlform⟩ := utf8_non_space_chars_cons_inv h
        have hrlen : r.length < (b0 :: tail).length := utf8_chop_char_length heq
        have hrle : r.length ≤ n := by
          simp only [List.length_cons] at hrlen hsn
          omega
        rw [next_non_space_eq heq]
        rcases hsp : char_is_space cc
        · rw [hsp] at hlform
          rw [if_neg Bool.false_ne_true]
          simp only [Bool.false_eq_true, if_false] at hlform
          subst hlform
          constructor
          · intro hnil
            exact List.noConfusion hnil
          · intro cc2 bs2 l3 hcons
            injection hcons with h1 h2
            injection h1 with hcc hbs
            subst hcc
            subst hbs
            subst h2
            exact ⟨r, rfl, hl2some⟩
        · rw [hsp] at hlform
          rw [if_pos rfl]
          simp only [if_true] at hlform
          subst hlform
          exact ih r _ hrle hl2some
  exact fun s l h => H s.length s l le_rfl h

/-! ## Scan characterisation -/

theorem scan_cells_spec (font : Font) (n : Nat) :
    ∀ (cells : List (Nat × Nat)) (iter : List Nat) (glyphs : List Glyph)
      (chars : List (Nat × List Nat)),
      utf8_non_space_chars iter = some chars →
      glyphs.length + chars.length = n →
      (((cells.filter fun c =>
            ! glyph_is_empty font (cell_index font c)).length ≤ chars.length →
          ∃ iter2,
            scan_cells font n cells iter glyphs =
              .ok (glyphs ++
                List.zipWith
                  (fun c ch => make_glyph font (cell_index font c) ch.1 ch.2)
                  (cells.filter fun c =>
                    ! glyph_is_empty font (cell_index font c)) chars,
                iter2) ∧
            utf8_non_space_chars iter2 =
              some (chars.drop
                (cells.filter fun c =>
                  ! glyph_is_empty font (cell_index font c)).length)) ∧
        ((cells.filter fun c =>
            ! glyph_is_empty font (cell_index font c)).length > chars.length →
          scan_cells font n cells iter glyphs = .error .tooManyGlyphs)) := by
  intro cells
  induction cells with
  | nil =>
    intro iter glyphs chars hiter hinv
    constructor
    · intro hle
      refine ⟨iter, ?_, ?_⟩
      · rw [scan_cells]
        simp
      · simp [hiter]
    · intro hgt
      simp at hgt
  | cons cell cells' ih =>
    intro iter glyphs chars hiter hinv
    by_cases he : glyph_is_empty font (cell_index font cell)
    · have hfilter : ((cell :: cells').filter fun c =>
          ! glyph_is_empty font (cell_index font c)) =
          cells'.filter fun c => ! glyph_is_empty font (cell_index font c) := by
        simp [List.filter_cons, he]
      have hscan : scan_cells font n (cell :: cells') iter glyphs =
          scan_cells font n cells' iter glyphs := by
        rw [scan_cells, if_pos he]
      rw [hfilter, hscan]
      exact ih iter glyphs chars hiter hinv
    · have hfilter : ((cell :: cells').filter fun c =>
          ! glyph_is_empty font (cell_index font c)) =
          cell :: cells'.filter fun c => ! glyph_is_empty font (cell_index font c) := by
        simp [List.filter_cons, he]
      rw [hfilter]
      by_cases hfull : glyphs.length = n
      · have hscan : scan_cells font n (cell :: cells') iter glyphs =
            .error .tooManyGlyphs := by
          rw [scan_cells, if_neg he, if_pos hfull]
        constructor
        · intro hle
          exfalso
          simp only [List.length_cons] at hle
          omega
        · intro hgt
          exact hscan
      · have hpos : 0 < chars.length := by omega
        obtain ⟨⟨cc, bs⟩, chars', rfl⟩ : ∃ ch chars', chars = ch :: chars' := by
          rcases chars with _ | ⟨ch, chars'⟩
          · simp at hpos
          · exact ⟨ch, chars', rfl⟩
        obtain ⟨r, hnext, hrchars⟩ := (next_non_space_spec iter _ hiter).2 cc bs chars' rfl
        have hscan : scan_cells font n (cell :: cells') iter glyphs =
            scan_cells font n cells' r
              (glyphs ++ [make_glyph font (cell_index font cell) cc bs]) := by
          rw [scan_cells, if_neg he, if_neg hfull, hnext]
        rw [hscan]
        have hinv2 : (glyphs ++ [make_glyph font (cell_index font cell) cc bs]).length +
            chars'.length = n := by
          simp only [List.length_append, List.length_cons, List.length_nil] at hinv ⊢
          omega
        have IH := ih r (glyphs ++ [make_glyph font (cell_index font cell) cc bs])
          chars' hrchars hinv2
        constructor
        · intro hle
          simp only [List.length_cons] at hle
          obtain ⟨iter2, hok, hdrop⟩ := IH.1 (by omega)
          refine ⟨iter2, ?_, ?_⟩
          · rw [hok]
            simp only [List.zipWith_cons_cons, List.append_assoc, List.singleton_append]
          · rw [hdrop]
            simp only [List.length_cons, List.drop_succ_cons]
        · intro hgt
          simp only [List.length_cons] at hgt
          exact IH.2 (by omega)

theorem extract_spec (font : Font) (legend : List Nat) (chars : List (Nat × List Nat))
    (h : utf8_non_space_chars legend = some chars) :
    ((font_nonempty_cells font).length = chars.length →
      extract font legend =
        .ok (List.zipWith
          (fun c ch => make_glyph font (cell_index font c) ch.1 ch.2)
          (font_nonempty_cells font) chars)) ∧
    ((font_nonempty_cells font).length > chars.length →
      extract font legend = .error .tooManyGlyphs) ∧
    ((font_nonempty_cells font).length < chars.length →
      extract font legend = .error .tooManyChars) := by
  have hspec := scan_cells_spec font chars.length (font_grid_cells font) legend [] chars h
    (by simp)
  have hne : font_nonempty_cells font =
      (font_grid_cells font).filter fun c => ! glyph_is_empty font (cell_index font c) :=
    rfl
  refine ⟨?_, ?_, ?_⟩
  · intro heq
    rw [hne] at heq
    obtain ⟨iter2, hok, -⟩ := hspec.1 (le_of_eq heq)
    rw [hne]
    simp only [extract, h]
    rw [hok]
    dsimp only
    rw [if_pos (by simp only [List.nil_append, List.length_zipWith]; omega)]
    simp
  · intro hgt
    rw [hne] at hgt
    have herr := hspec.2 hgt
    simp only [extract, h]
    rw [herr]
    
  · intro hlt
    rw [hne] at hlt
    obtain ⟨iter2, hok, -⟩ := hspec.1 (by omega)
    simp only [extract, h]
    rw [hok]
    dsimp only
    rw [if_neg (by simp only [List.nil_append, List.length_zipWith]; omega)]

theorem zipWith_getElem_opt {α β γ : Type} (f : α → β → γ) :
    ∀ (l1 : List α) (l2 : List β) (i : Nat) (a : α) (b : β),
      l1[i]? = some a → l2[i]? = some b →
      (List.zipWith f l1 l2)[i]? = some (f a b) := by
  intro l1
  induction l1 with
  | nil =>
    intro l2 i a b h1 h2
    simp at h1
  | cons x xs ih =>
    intro l2 i a b h1 h2
    rcases l2 with _ | ⟨y, ys⟩
    · simp at h2
    · rcases i with _ | i
      · simp only [List.getElem?_cons_zero, Option.some.injEq] at h1 h2
        subst h1
        subst h2
        simp [List.zipWith_cons_cons]
      · simp only [List.getElem?_cons_succ] at h1 h2
        simp only [List.zipWith_cons_cons, List.getElem?_cons_succ]
        exact ih ys i a b h1 h2

theorem mem_zipWith_exists {α β γ : Type} (f : α → β → γ) :
    ∀ (l1 : List α) (l2 : List β) (c : γ), c ∈ List.zipWith f l1 l2 →
      ∃ a b, a ∈ l1 ∧ b ∈ l2 ∧ c = f a b := by
  intro l1
  induction l1 with
  | nil =>
    intro l2 c hc
    simp at hc
  | cons x xs ih =>
    intro l2 c hc
    rcases l2 with _ | ⟨y, ys⟩
    · simp at hc
    · simp only [List.zipWith_cons_cons, List.mem_cons] at hc
      rcases hc with rfl | hc
      · exact ⟨x, y, by simp, by simp, rfl⟩
      · obtain ⟨a, b, ha, hb, rfl⟩ := ih ys c hc
        exact ⟨a, b, by simp [ha], by simp [hb], rfl⟩

theorem glyph_bitmap_getD (font : Font) (idx y x : Nat)
    (hy : y < GLYPH_HEIGHT) (hx : x < GLYPH_WIDTH) :
    (glyph_bitmap font idx).getD (y * GLYPH_WIDTH + x) 0 =
      if font.data (idx * font.bytes_per_color +
          y * (font.width * font.bytes_per_color) + x * font.bytes_per_color) = 0x00
      then 0xff000000 else 0x00000000 := by
  have hW : GLYPH_WIDTH = 8 := rfl
  have hH : GLYPH_HEIGHT = 8 := rfl
  have hi : y * GLYPH_WIDTH + x < GLYPH_HEIGHT * GLYPH_WIDTH := by
    rw [hW] at hx ⊢
    rw [hH] at hy ⊢
    omega
  have hdy : (y * GLYPH_WIDTH + x) / GLYPH_WIDTH = y := by
    rw [hW] at hx ⊢
    omega
  have hdx : (y * GLYPH_WIDTH + x) % GLYPH_WIDTH = x := by
    rw [hW] at hx ⊢
    omega
  unfold glyph_bitmap
  rw [List.getD_eq_getElem?_getD, List.getElem?_map,
    List.getElem?_range hi]
  simp only [Option.map_some', Option.getD_some]
  rw [hdy, hdx]

theorem glyph_not_empty_exists {font : Font} {idx : Nat}
    (h : glyph_is_empty font idx = false) :
    ∃ y, y < GLYPH_HEIGHT ∧ ∃ x, x < GLYPH_WIDTH ∧
      font.data (idx * font.bytes_per_color + y * (font.width * font.bytes_per_color) +
        x * font.bytes_per_color) = 0x00 := by
  by_contra hno
  push_neg at hno
  have htrue : glyph_is_empty font idx = true := by
    unfold glyph_is_empty
    simp only [List.all_eq_true, List.mem_range, bne_iff_ne, ne_eq]
    intro yy hyy xx hxx
    exact hno yy hyy xx hxx
  rw [htrue] at h
  exact Bool.noConfusion h

theorem extract_ok_inv {font : Font} {legend : List Nat} {glyphs : List Glyph}
    (h : extract font legend = .ok glyphs) :
    ∃ chars, utf8_non_space_chars legend = some chars ∧
      (font_nonempty_cells font).length = chars.length ∧
      glyphs =
        List.zipWith (fun c ch => make_glyph font (cell_index font c) ch.1 ch.2)
          (font_nonempty_cells font) chars := by
  rcases hnsc : utf8_non_space_chars legend with _ | chars
  · rw [extract, hnsc] at h
    exact Except.noConfusion h
  · have hsp := extract_spec font legend chars hnsc
    rcases Nat.lt_trichotomy (font_nonempty_cells font).length chars.length with hlt | heq | hgt
    · rw [hsp.2.2 hlt] at h
      exact Except.noConfusion h
    · rw [hsp.1 heq] at h
      injection h with h1
      exact ⟨chars, rfl, heq, h1.symm⟩
    · rw [hsp.2.1 hgt] at h
      exact Except.noConfusion h

/-- C1: for a pixel buffer whose dimensions are multiples of 8 and a valid
UTF-8 legend whose non-whitespace code-point count equals the number of
non-empty cells, extraction succeeds, and the `i`-th glyph record is built
from the `i`-th non-empty cell in row-major scan order (its bitmap and
null-terminated display string coming from that cell and that character)
carrying the `i`-th non-whitespace code point of the legend in file order. -/
theorem c1_extraction_pairs (font : Font) (legend : List Nat)
    (chars : List (Nat × List Nat))
    (hw : font.width % GLYPH_WIDTH = 0) (hh : font.height % GLYPH_HEIGHT = 0)
    (hv : utf8_validate legend = true)
    (hchars : utf8_non_space_chars legend = some chars)
    (hlen : (font_nonempty_cells font).length = chars.length) :
    ∃ glyphs, extract font legend = .ok glyphs ∧
      glyphs.length = (font_nonempty_cells font).length ∧
      ∀ i, i < glyphs.length →
        ∃ cell ch, (font_nonempty_cells font)[i]? = some cell ∧ chars[i]? = some ch ∧
          glyphs[i]? = some (make_glyph font (cell_index font cell) ch.1 ch.2) := by
  refine ⟨_, (extract_spec font legend chars hchars).1 hlen, ?_, ?_⟩
  · rw [List.length_zipWith]
    omega
  · intro i hi
    rw [List.length_zipWith] at hi
    have hi1 : i < (font_nonempty_cells font).length := by omega
    have hi2 : i < chars.length := by omega
    refine ⟨(font_nonempty_cells font)[i], chars[i],
      List.getElem?_eq_getElem hi1, List.getElem?_eq_getElem hi2, ?_⟩
    exact zipWith_getElem_opt _ _ _ i _ _
      (List.getElem?_eq_getElem hi1) (List.getElem?_eq_getElem hi2)

/-- C2: every glyph record produced by a successful extraction comes from a
non-empty cell; at each of the 64 positions `(y, x)` its bitmap holds
`0xFF000000` exactly when the first channel byte of the corresponding pixel
of that cell is `0x00` and `0x00000000` otherwise, and the bitmap contains at
least one `0xFF000000` entry, agreeing with the emptiness test that selected
the cell. -/
theorem c2_bitmap_colors (font : Font) (legend : List Nat) (glyphs : List Glyph)
    (hok : extract font legend = .ok glyphs) :
    ∀ g ∈ glyphs,
      ∃ idx, glyph_is_empty font idx = false ∧ g.bitmap = glyph_bitmap font idx ∧
        (∀ y, y < GLYPH_HEIGHT → ∀ x, x < GLYPH_WIDTH →
          g.bitmap.getD (y * GLYPH_WIDTH + x) 0 =
            (if font.data (idx * font.bytes_per_color +
                y * (font.width * font.bytes_per_color) + x * font.bytes_per_color) = 0x00
             then 0xff000000 else 0x00000000)) ∧
        ∃ i, i < GLYPH_HEIGHT * GLYPH_WIDTH ∧ g.bitmap.getD i 0 = 0xff000000 := by
  intro g hg
  obtain ⟨chars, hnsc, hlen, rfl⟩ := extract_ok_inv hok
  obtain ⟨cell, ch, hcell, hch, rfl⟩ := mem_zipWith_exists _ _ _ _ hg
  have hne : glyph_is_empty font (cell_index font cell) = false := by
    have hmem := (List.mem_filter.mp hcell).2
    simpa using hmem
  refine ⟨cell_index font cell, hne, rfl, ?_, ?_⟩
  · intro y hy x hx
    exact glyph_bitmap_getD font (cell_index font cell) y x hy hx
  · obtain ⟨y, hy, x, hx, hzero⟩ := glyph_not_empty_exists hne
    refine ⟨y * GLYPH_WIDTH + x, ?_, ?_⟩
    · have hW : GLYPH_WIDTH = 8 := rfl
      have hH : GLYPH_HEIGHT = 8 := rfl
      rw [hW] at hx ⊢
      rw [hH] at hy ⊢
      omega
    · show (glyph_bitmap font (cell_index font cell)).getD (y * GLYPH_WIDTH + x) 0 = 0xff000000
      rw [glyph_bitmap_getD font _ y x hy hx, if_pos hzero]

/-- C9: when the number of non-empty cells and the number of non-whitespace
legend code points differ, extraction fails and the process exits with code 1
without printing any glyph dump; an excess of non-empty cells is reported as
the mid-scan `tooManyGlyphs` error (raised when the output array is already
full), while an excess of legend characters is reported as the
`tooManyChars` error of the check that runs only after the full grid scan. -/
theorem c9_count_mismatch_fails (font : Font) (legend : List Nat)
    (chars : List (Nat × List Nat))
    (hw : font.width % GLYPH_WIDTH = 0) (hh : font.height % GLYPH_HEIGHT = 0)
    (hv : utf8_validate legend = true)
    (hchars : utf8_non_space_chars legend = some chars) :
    ((font_nonempty_cells font).length > chars.length →
      extract font legend = .error .tooManyGlyphs ∧
        main_run font legend = (1, none)) ∧
    ((font_nonempty_cells font).length < chars.length →
      extract font legend = .error .tooManyChars ∧
        main_run font legend = (1, none)) := by
  have hsp := extract_spec font legend chars hchars
  constructor
  · intro hgt
    refine ⟨hsp.2.1 hgt, ?_⟩
    unfold main_run
    rw [if_neg (by simp [hv]), if_neg (by simp [hw, hh]), hsp.2.1 hgt]
  · intro hlt
    refine ⟨hsp.2.2 hlt, ?_⟩
    unfold main_run
    rw [if_neg (by simp [hv]), if_neg (by simp [hw, hh]), hsp.2.2 hlt]

/-- C10: for a valid-UTF-8 legend the extraction pass never attempts to
decode past the end of the legend buffer: the whitespace-skipping decode loop
is always entered with at least one non-whitespace code point remaining
(because the pre-scan counted exactly `font_char_count` of them and the
output array was sized to that count, the array-full check fires first), so
the out-of-input outcome is impossible. -/
theorem c10_legend_not_exhausted (font : Font) (legend : List Nat)
    (hv : utf8_validate legend = true) :
    extract font legend ≠ .error .outOfInput := by
  obtain ⟨chars, hchars⟩ := utf8_non_space_chars_of_validate legend hv
  have hsp := extract_spec font legend chars hchars
  rcases Nat.lt_trichotomy (font_nonempty_cells font).length chars.length with hlt | heq | hgt
  · rw [hsp.2.2 hlt]
    intro hcon
    injection hcon with h1
    exact ExtractError.noConfusion h1
  · rw [hsp.1 heq]
    intro hcon
    exact Except.noConfusion hcon
  · rw [hsp.2.1 hgt]
    intro hcon
    injection hcon with h1
    exact ExtractError.noConfusion h1

theorem c1_extraction_pairs_witness :
    ((⟨8, 8, 1, fun i => if i = 0 then 0 else 1⟩ : Font).width % GLYPH_WIDTH = 0 ∧
      (⟨8, 8, 1, fun i => if i = 0 then 0 else 1⟩ : Font).height % GLYPH_HEIGHT = 0 ∧
      utf8_validate [0x41] = true ∧
      utf8_non_space_chars [0x41] = some [(0x41, [0x41])] ∧
      (font_nonempty_cells ⟨8, 8, 1, fun i => if i = 0 then 0 else 1⟩).length =
        [(0x41, [0x41])].length) ∧
    (∃ glyphs, extract ⟨8, 8, 1, fun i => if i = 0 then 0 else 1⟩ [0x41] = .ok glyphs ∧
      glyphs.length =
        (font_nonempty_cells ⟨8, 8, 1, fun i => if i = 0 then 0 else 1⟩).length ∧
      ∀ i, i < glyphs.length →
        ∃ cell ch,
          (font_nonempty_cells ⟨8, 8, 1, fun i => if i = 0 then 0 else 1⟩)[i]? = some cell ∧
          [(0x41, [0x41])][i]? = some ch ∧
          glyphs[i]? = some (make_glyph ⟨8, 8, 1, fun i => if i = 0 then 0 else 1⟩
            (cell_index ⟨8, 8, 1, fun i => if i = 0 then 0 else 1⟩ cell) ch.1 ch.2)) := by
  have hchop : utf8_chop_char [0x41] = some (0x41, [0x41], []) := by decide
  have hsz : utf8_char_size 0x41 = 1 := by decide
  have hval : utf8_validate [0x41] = true := by
    rw [utf8_validate_cons_eq hchop (by decide) (by decide), hsz]
    simp [utf8_validate_nil]
  have hnsc : utf8_non_space_chars [0x41] = some [(0x41, [0x41])] := by
    rw [utf8_non_space_chars_cons_eq hchop, utf8_non_space_chars_nil]
    decide
  exact ⟨⟨by decide, by decide, hval, hnsc, by decide⟩,
    c1_extraction_pairs ⟨8, 8, 1, fun i => if i = 0 then 0 else 1⟩ [0x41]
      [(0x41, [0x41])] (by decide) (by decide) hval hnsc (by decide)⟩

theorem c2_bitmap_colors_witness :
    extract ⟨8, 8, 1, fun i => if i = 0 then 0 else 1⟩ [0x41] =
      .ok [make_glyph ⟨8, 8, 1, fun i => if i = 0 then 0 else 1⟩ 0 0x41 [0x41]] ∧
    (∀ g ∈ [make_glyph ⟨8, 8, 1, fun i => if i = 0 then 0 else 1⟩ 0 0x41 [0x41]],
      ∃ idx,
        glyph_is_empty ⟨8, 8, 1, fun i => if i = 0 then 0 else 1⟩ idx = false ∧
        g.bitmap = glyph_bitmap ⟨8, 8, 1, fun i => if i = 0 then 0 else 1⟩ idx ∧
        (∀ y, y < GLYPH_HEIGHT → ∀ x, x < GLYPH_WIDTH →
          g.bitmap.getD (y * GLYPH_WIDTH + x) 0 =
            (if (⟨8, 8, 1, fun i => if i = 0 then 0 else 1⟩ : Font).data
                (idx * (⟨8, 8, 1, fun i => if i = 0 then 0 else 1⟩ : Font).bytes_per_color +
                  y * ((⟨8, 8, 1, fun i => if i = 0 then 0 else 1⟩ : Font).width *
                    (⟨8, 8, 1, fun i => if i = 0 then 0 else 1⟩ : Font).bytes_per_color) +
                  x * (⟨8, 8, 1, fun i => if i = 0 then 0 else 1⟩ : Font).bytes_per_color) =
                0x00
             then 0xff000000 else 0x00000000)) ∧
        ∃ i, i < GLYPH_HEIGHT * GLYPH_WIDTH ∧ g.bitmap.getD i 0 = 0xff000000) := by
  have hchop : utf8_chop_char [0x41] = some (0x41, [0x41], []) := by decide
  have hnsc : utf8_non_space_chars [0x41] = some [(0x41, [0x41])] := by
    rw [utf8_non_space_chars_cons_eq hchop, utf8_non_space_chars_nil]
    decide
  have hok : extract ⟨8, 8, 1, fun i => if i = 0 then 0 else 1⟩ [0x41] =
      .ok [make_glyph ⟨8, 8, 1, fun i => if i = 0 then 0 else 1⟩ 0 0x41 [0x41]] := by
    rw [(extract_spec ⟨8, 8, 1, fun i => if i = 0 then 0 else 1⟩ [0x41]
      [(0x41, [0x41])] hnsc).1 (by decide)]
    exact congrArg Except.ok (by decide)
  exact ⟨hok, c2_bitmap_colors ⟨8, 8, 1, fun i => if i = 0 then 0 else 1⟩ [0x41]
    [make_glyph ⟨8, 8, 1, fun i => if i = 0 then 0 else 1⟩ 0 0x41 [0x41]] hok⟩

theorem c9_count_mismatch_fails_witness :
    ((⟨8, 8, 1, fun _ => 1⟩ : Font).width % GLYPH_WIDTH = 0 ∧
      (⟨8, 8, 1, fun _ => 1⟩ : Font).height % GLYPH_HEIGHT = 0 ∧
      utf8_validate [0x41] = true ∧
      utf8_non_space_chars [0x41] = some [(0x41, [0x41])]) ∧
    (((font_nonempty_cells ⟨8, 8, 1, fun _ => 1⟩).length > [(0x41, [0x41])].length →
        extract ⟨8, 8, 1, fun _ => 1⟩ [0x41] = .error .tooManyGlyphs ∧
          main_run ⟨8, 8, 1, fun _ => 1⟩ [0x41] = (1, none)) ∧
      ((font_nonempty_cells ⟨8, 8, 1, fun _ => 1⟩).length < [(0x41, [0x41])].length →
        extract ⟨8, 8, 1, fun _ => 1⟩ [0x41] = .error .tooManyChars ∧
          main_run ⟨8, 8, 1, fun _ => 1⟩ [0x41] = (1, none))) := by
  have hchop : utf8_chop_char [0x41] = some (0x41, [0x41], []) := by decide
  have hsz : utf8_char_size 0x41 = 1 := by decide
  have hval : utf8_validate [0x41] = true := by
    rw [utf8_validate_cons_eq hchop (by decide) (by decide), hsz]
    simp [utf8_validate_nil]
  have hnsc : utf8_non_space_chars [0x41] = some [(0x41, [0x41])] := by
    rw [utf8_non_space_chars_cons_eq hchop, utf8_non_space_chars_nil]
    decide
  exact ⟨⟨by decide, by decide, hval, hnsc⟩,
    c9_count_mismatch_fails ⟨8, 8, 1, fun _ => 1⟩ [0x41] [(0x41, [0x41])]
      (by decide) (by decide) hval hnsc⟩

theorem c10_legend_not_exhausted_witness :
    utf8_validate [0x41] = true ∧
      extract ⟨8, 8, 1, fun _ => 1⟩ [0x41] ≠ .error .outOfInput := by
  have hchop : utf8_chop_char [0x41] = some (0x41, [0x41], []) := by decide
  have hsz : utf8_char_size 0x41 = 1 := by decide
  have hval : utf8_validate [0x41] = true := by
    rw [utf8_validate_cons_eq hchop (by decide) (by decide), hsz]
    simp [utf8_validate_nil]
  exact ⟨hval, c10_legend_not_exhausted ⟨8, 8, 1, fun _ => 1⟩ [0x41] hval⟩
